import Mathlib

/-!
A verification development for the mkbee wordlist utilities.

Words are modelled as lists of characters (`List Char`); Python's
characterwise `str.lower()` is modelled by mapping `Char.toLower`.
The definitions below are shallow embeddings of the functions
`clean_wordlist`, `selector` and `export_words` of
`src/python/filter_and_export.py`, and of the pangram classification of
`src/python/test_puzzle.py`.  Python sets of strings are modelled by
lists of `List Char` with membership up to equality, which agrees with
Python set semantics for every property proved here.
-/

namespace Mkbee

/-- Characterwise lowercasing: the model of Python `word.lower()`. -/
def lower (w : List Char) : List Char := w.map Char.toLower

/-- The ASCII apostrophe, one of the four characters rejected by `clean_wordlist`. -/
def apostrophe : Char := Char.ofNat 39

/-- U+2019, the Unicode right single quotation mark rejected by `clean_wordlist`. -/
def rightQuote : Char := Char.ofNat 0x2019

/-- The loop of `clean_wordlist` (filter_and_export.py lines 51-69):
`seen` is the set of already accepted (lowercased) words.  Each word is
lowercased, skipped when already seen, when it contains one of the four
forbidden characters, or when it is shorter than `min_length`, and
otherwise appended to the output and added to `seen`. -/
def cleanGo (min_length : Int) (seen : List (List Char)) : List (List Char) → List (List Char)
  | [] => []
  | w :: ws =>
    if lower w ∈ seen then cleanGo min_length seen ws
    else if '-' ∈ lower w ∨ '~' ∈ lower w ∨ apostrophe ∈ lower w ∨ rightQuote ∈ lower w then
      cleanGo min_length seen ws
    else if ((lower w).length : Int) < min_length then cleanGo min_length seen ws
    else lower w :: cleanGo min_length (lower w :: seen) ws

/-- `clean_wordlist` of filter_and_export.py: the loop started with an empty
`seen` set (the console reporting of the script is not part of the value). -/
def clean_wordlist (words : List (List Char)) (min_length : Int) : List (List Char) :=
  cleanGo min_length [] words

/-- The acceptance test of the cleaner on one lowercased word: none of the
four forbidden characters and length at least `min_length`. -/
def cleanKeep (min_length : Int) (w : List Char) : Bool :=
  decide (¬ ('-' ∈ w ∨ '~' ∈ w ∨ apostrophe ∈ w ∨ rightQuote ∈ w) ∧ min_length ≤ (w.length : Int))

/-- First-occurrence deduplication: keeps each value's first occurrence, in
the order of the first occurrences; the specification's wording of the
cleaner's order guarantee. -/
def dedupFirst : List (List Char) → List (List Char)
  | [] => []
  | x :: xs => x :: dedupFirst (xs.filter (fun y => decide (y ≠ x)))
  termination_by l => l.length
  decreasing_by
    simp only [List.length_cons]
    exact Nat.lt_succ_of_le (List.length_filter_le _ _)

/-- The allowed-letter set of `selector` (filter_and_export.py line 97):
`set([must_have] + [l.lower() for l in optional])`, a Python set of strings,
modelled as the list with the same members. -/
def allowedLetters (must_have : List Char) (optional : List (List Char)) : List (List Char) :=
  lower must_have :: optional.map lower

/-- The loop of `selector` (filter_and_export.py lines 99-109): each word is
lowercased, skipped when too short or when it does not contain `mh` as a
substring, and kept when every one of its characters (as a one-character
string) is a member of the allowed set. -/
def selectGo (mh : List Char) (allowed : List (List Char)) (min_length : Int) :
    List (List Char) → List (List Char)
  | [] => []
  | w :: ws =>
    if ((lower w).length : Int) < min_length ∨ ¬ List.IsInfix mh (lower w) then
      selectGo mh allowed min_length ws
    else if ∀ c ∈ lower w, [c] ∈ allowed then lower w :: selectGo mh allowed min_length ws
    else selectGo mh allowed min_length ws

/-- `selector` of filter_and_export.py: `must_have` is lowercased first and the
allowed set is built from it and the lowercased optional letters. -/
def selector (must_have : List Char) (optional : List (List Char))
    (words : List (List Char)) (min_length : Int) : List (List Char) :=
  selectGo (lower must_have) (allowedLetters must_have optional) min_length words

/-- The extensional behaviour of `selector` as the specification describes it:
the lowercased words of length at least `min_length` that contain the
lowercased required letter as a contiguous substring and whose characters all
lie in the set holding the lowercased required string and the lowercased
optional characters. -/
def selectorSpec (must_have : List Char) (optional : List Char)
    (words : List (List Char)) (min_length : Int) : List (List Char) :=
  (words.map lower).filter (fun w =>
    decide (min_length ≤ (w.length : Int) ∧ List.IsInfix (lower must_have) w ∧
      ∀ c ∈ w, [c] = lower must_have ∨ c ∈ optional.map Char.toLower))

/-- The pangram classification of test_puzzle.py line 69:
`set(w) == all_letters` where `all_letters = set([central] + others)`,
modelled as equality of the corresponding finite character sets. -/
def is_pangram (central : Char) (others : List Char) (w : List Char) : Prop :=
  w.toFinset = (central :: others).toFinset

/-- The lowercase hexadecimal digit for `n < 16`, as Python's `'%04x'`
formatting produces it. -/
def hexDigit (n : Nat) : Char :=
  if n < 10 then Char.ofNat (48 + n) else Char.ofNat (87 + n)

/-- The encoding of one character inside a JSON string literal as Python's
`json.dump` with `ensure_ascii=False` produces it: backslash and double quote
are escaped, control characters below 0x20 use the short escapes
`\b \t \n \f \r` or a four-digit `\u00xy` escape, and every other character
stands for itself. -/
def encodeChar (c : Char) : List Char :=
  if c = '\\' then ['\\', '\\']
  else if c = '"' then ['\\', '"']
  else if c.toNat < 32 then
    if c.toNat = 8 then ['\\', 'b']
    else if c.toNat = 9 then ['\\', 't']
    else if c.toNat = 10 then ['\\', 'n']
    else if c.toNat = 12 then ['\\', 'f']
    else if c.toNat = 13 then ['\\', 'r']
    else ['\\', 'u', '0', '0', hexDigit (c.toNat / 16), hexDigit (c.toNat % 16)]
  else [c]

/-- The body of a JSON string literal: the concatenation of the encodings of
the characters. -/
def encodeBody : List Char → List Char
  | [] => []
  | c :: s => encodeChar c ++ encodeBody s

/-- A JSON string literal: the encoded body between double quotes. -/
def encodeString (s : List Char) : List Char := '"' :: (encodeBody s ++ ['"'])

/-- The comma-separated string literals of a JSON array, with no whitespace,
as `json.dump` with `separators=(',', ':')` produces them. -/
def exportItems : List (List Char) → List Char
  | [] => []
  | [w] => encodeString w
  | w :: ws => encodeString w ++ (',' :: exportItems ws)

/-- `export_words` of filter_and_export.py lines 124-125: the compact JSON
array text `json.dump(words, f, ensure_ascii=False, separators=(',', ':'))`
writes.  The value is modelled as the sequence of characters written; the
UTF-8 encoding of a sequence of Unicode scalar values is injective, so the
character sequence determines the byte sequence and conversely. -/
def export_words (words : List (List Char)) : List Char :=
  '[' :: (exportItems words ++ [']'])

/-- The numeric value of one hexadecimal digit, as a standard JSON parser
reads it. -/
def decodeHex (c : Char) : Option Nat :=
  if 48 ≤ c.toNat ∧ c.toNat ≤ 57 then some (c.toNat - 48)
  else if 97 ≤ c.toNat ∧ c.toNat ≤ 102 then some (c.toNat - 87)
  else if 65 ≤ c.toNat ∧ c.toNat ≤ 70 then some (c.toNat - 55)
  else none

/-- The value of a four-digit hexadecimal escape. -/
def hex4 (a b c d : Char) : Option Nat :=
  match decodeHex a, decodeHex b, decodeHex c, decodeHex d with
  | some x, some y, some z, some w => some (((x * 16 + y) * 16 + z) * 16 + w)
  | _, _, _, _ => none

/-- A standard JSON string-literal reader, applied after the opening quote:
it returns the decoded string and the unconsumed remainder, handling the
escapes of RFC 8259 for characters of the Basic Multilingual Plane. -/
def parseStringBody : List Char → Option (List Char × List Char)
  | [] => none
  | c :: rest =>
    if c = '"' then some ([], rest)
    else if c = '\\' then
      match rest with
      | [] => none
      | e :: rest2 =>
        if e = '"' then (parseStringBody rest2).map (fun p => ('"' :: p.1, p.2))
        else if e = '\\' then (parseStringBody rest2).map (fun p => ('\\' :: p.1, p.2))
        else if e = '/' then (parseStringBody rest2).map (fun p => ('/' :: p.1, p.2))
        else if e = 'b' then (parseStringBody rest2).map (fun p => (Char.ofNat 8 :: p.1, p.2))
        else if e = 'f' then (parseStringBody rest2).map (fun p => (Char.ofNat 12 :: p.1, p.2))
        else if e = 'n' then (parseStringBody rest2).map (fun p => (Char.ofNat 10 :: p.1, p.2))
        else if e = 'r' then (parseStringBody rest2).map (fun p => (Char.ofNat 13 :: p.1, p.2))
        else if e = 't' then (parseStringBody rest2).map (fun p => (Char.ofNat 9 :: p.1, p.2))
        else if e = 'u' then
          match rest2 with
          | a :: b :: c2 :: d :: rest3 =>
            match hex4 a b c2 d with
            | some n => (parseStringBody rest3).map (fun p => (Char.ofNat n :: p.1, p.2))
            | none => none
          | _ => none
        else none
    else (parseStringBody rest).map (fun p => (c :: p.1, p.2))

/-- The elements of a non-empty JSON array of strings, read one string
literal at a time; `fuel` bounds the number of elements and only has to be
at least their count. -/
def parseItems : Nat → List Char → Option (List (List Char))
  | 0, _ => none
  | Nat.succ fuel, s =>
    match s with
    | '"' :: rest =>
      match parseStringBody rest with
      | none => none
      | some (str, rest2) =>
        match rest2 with
        | ']' :: rest3 => if rest3 = [] then some [str] else none
        | ',' :: rest3 => (parseItems fuel rest3).map (fun l => str :: l)
        | _ => none
    | _ => none

/-- A standard JSON parser restricted to the texts `export_words` can emit:
a complete array of string literals with no whitespace between tokens. -/
def parseJsonStrings (s : List Char) : Option (List (List Char)) :=
  match s with
  | '[' :: rest =>
    match rest with
    | [']'] => some []
    | _ => parseItems rest.length rest
  | _ => none

theorem toNat_ofNat_of_lt {n : Nat} (h : n < 55296) : (Char.ofNat n).toNat = n := by
  unfold Char.ofNat
  rw [dif_pos (Or.inl h)]
  rfl

theorem toLower_eq (c : Char) :
    Char.toLower c = if 65 ≤ c.toNat ∧ c.toNat ≤ 90 then Char.ofNat (c.toNat + 32) else c := rfl

theorem toLower_toLower (c : Char) : Char.toLower (Char.toLower c) = Char.toLower c := by
  by_cases h : 65 ≤ c.toNat ∧ c.toNat ≤ 90
  · rw [toLower_eq c, if_pos h, toLower_eq, toNat_ofNat_of_lt (by omega), if_neg (by omega)]
  · rw [toLower_eq c, if_neg h, toLower_eq c, if_neg h]

theorem lower_lower (w : List Char) : lower (lower w) = lower w := by
  unfold lower
  rw [List.map_map]
  exact List.map_congr_left (fun c _ => toLower_toLower c)

theorem lower_length (w : List Char) : (lower w).length = w.length := List.length_map w Char.toLower

theorem cleanGo_sublist (min_length : Int) :
    ∀ (ws seen : List (List Char)), List.Sublist (cleanGo min_length seen ws) (ws.map lower)
  | [], _ => List.Sublist.refl _
  | w :: ws, seen => by
    simp only [cleanGo, List.map_cons]
    split_ifs with h1 h2 h3
    · exact List.Sublist.cons _ (cleanGo_sublist min_length ws seen)
    · exact List.Sublist.cons _ (cleanGo_sublist min_length ws seen)
    · exact List.Sublist.cons _ (cleanGo_sublist min_length ws seen)
    · exact List.Sublist.cons₂ _ (cleanGo_sublist min_length ws (lower w :: seen))

theorem cleanGo_mem (min_length : Int) :
    ∀ (ws seen : List (List Char)) (w : List Char), w ∈ cleanGo min_length seen ws →
      lower w = w ∧ min_length ≤ (w.length : Int) ∧
      ¬ ('-' ∈ w ∨ '~' ∈ w ∨ apostrophe ∈ w ∨ rightQuote ∈ w)
  | [], _, w, h => absurd h (List.not_mem_nil w)
  | v :: ws, seen, w, h => by
    simp only [cleanGo] at h
    split_ifs at h with h1 h2 h3
    · exact cleanGo_mem min_length ws seen w h
    · exact cleanGo_mem min_length ws seen w h
    · exact cleanGo_mem min_length ws seen w h
    · rcases List.mem_cons.mp h with heq | h
      · subst heq
        exact ⟨lower_lower v, by omega, h2⟩
      · exact cleanGo_mem min_length ws (lower v :: seen) w h

theorem cleanGo_nodup (min_length : Int) :
    ∀ (ws seen : List (List Char)),
      (∀ w ∈ cleanGo min_length seen ws, w ∉ seen) ∧ (cleanGo min_length seen ws).Nodup
  | [], _ => ⟨fun w h => absurd h (List.not_mem_nil w), List.nodup_nil⟩
  | v :: ws, seen => by
    simp only [cleanGo]
    split_ifs with h1 h2 h3
    · exact cleanGo_nodup min_length ws seen
    · exact cleanGo_nodup min_length ws seen
    · exact cleanGo_nodup min_length ws seen
    · obtain ⟨ih1, ih2⟩ := cleanGo_nodup min_length ws (lower v :: seen)
      constructor
      · intro w hw
        rcases List.mem_cons.mp hw with heq | hw
        · subst heq; exact h1
        · intro hsn
          exact ih1 w hw (List.mem_cons_of_mem _ hsn)
      · refine List.nodup_cons.mpr ⟨?_, ih2⟩
        intro hmem
        exact ih1 _ hmem (List.mem_cons_self _ _)

theorem cleanGo_complete (min_length : Int) :
    ∀ (ws seen : List (List Char)) (w : List Char), w ∈ ws →
      ¬ ('-' ∈ lower w ∨ '~' ∈ lower w ∨ apostrophe ∈ lower w ∨ rightQuote ∈ lower w) →
      min_length ≤ ((lower w).length : Int) →
      lower w ∈ seen ∨ lower w ∈ cleanGo min_length seen ws
  | [], _, w, h, _, _ => absurd h (List.not_mem_nil w)
  | v :: ws, seen, w, hmem, hforb, hlen => by
    simp only [cleanGo]
    rcases List.mem_cons.mp hmem with heq | hmem
    · subst heq
      by_cases h1 : lower w ∈ seen
      · rw [if_pos h1]; exact Or.inl h1
      · rw [if_neg h1, if_neg hforb, if_neg (by omega)]
        exact Or.inr (List.mem_cons_self _ _)
    · split_ifs with h1 h2 h3
      · exact cleanGo_complete min_length ws seen w hmem hforb hlen
      · exact cleanGo_complete min_length ws seen w hmem hforb hlen
      · exact cleanGo_complete min_length ws seen w hmem hforb hlen
      · rcases cleanGo_complete min_length ws (lower v :: seen) w hmem hforb hlen with h | h
        · rcases List.mem_cons.mp h with heq | hseen
          · right; rw [heq]; exact List.mem_cons_self _ _
          · left; exact hseen
        · right; exact List.mem_cons_of_mem _ h

theorem cleanGo_stable (min_length : Int) :
    ∀ (ws seen : List (List Char)),
      (∀ w ∈ ws, lower w = w ∧ min_length ≤ (w.length : Int) ∧
        ¬ ('-' ∈ w ∨ '~' ∈ w ∨ apostrophe ∈ w ∨ rightQuote ∈ w)) →
      ws.Nodup → (∀ w ∈ ws, w ∉ seen) →
      cleanGo min_length seen ws = ws
  | [], _, _, _, _ => rfl
  | v :: ws, seen, hprops, hnd, hseen => by
    obtain ⟨hlv, hlen, hforb⟩ := hprops v (List.mem_cons_self v ws)
    simp only [cleanGo, hlv]
    rw [if_neg (hseen v (List.mem_cons_self v ws)), if_neg hforb, if_neg (by omega)]
    congr 1
    refine cleanGo_stable min_length ws (v :: seen)
      (fun w hw => hprops w (List.mem_cons_of_mem _ hw))
      (List.Nodup.of_cons hnd) ?_
    intro w hw hmem
    rcases List.mem_cons.mp hmem with heq | hmem'
    · exact (List.nodup_cons.mp hnd).1 (heq ▸ hw)
    · exact hseen w (List.mem_cons_of_mem _ hw) hmem'

theorem cleanGo_eq_dedupFirst (min_length : Int) :
    ∀ (ws seen : List (List Char)),
      cleanGo min_length seen ws
        = dedupFirst (((ws.map lower).filter (cleanKeep min_length)).filter
            (fun y => decide (y ∉ seen)))
  | [], _ => by simp only [cleanGo, List.map_nil, List.filter_nil, dedupFirst]
  | w :: ws, seen => by
    have ih1 := cleanGo_eq_dedupFirst min_length ws seen
    have ih2 := cleanGo_eq_dedupFirst min_length ws (lower w :: seen)
    simp only [cleanGo, List.map_cons, List.filter_cons]
    by_cases h1 : lower w ∈ seen
    · rw [if_pos h1, ih1]
      by_cases hk : cleanKeep min_length (lower w) = true
      · rw [if_pos hk, List.filter_cons, if_neg (by simp [h1])]
      · rw [if_neg hk]
    · by_cases h2 : '-' ∈ lower w ∨ '~' ∈ lower w ∨ apostrophe ∈ lower w ∨ rightQuote ∈ lower w
      · rw [if_neg h1, if_pos h2, ih1]
        have hk : ¬ cleanKeep min_length (lower w) = true := by
          simp only [cleanKeep, decide_eq_true_eq]
          intro hc
          exact hc.1 h2
        rw [if_neg hk]
      · by_cases h3 : ((lower w).length : Int) < min_length
        · rw [if_neg h1, if_neg h2, if_pos h3, ih1]
          have hk : ¬ cleanKeep min_length (lower w) = true := by
            simp only [cleanKeep, decide_eq_true_eq]
            intro hc
            exact absurd hc.2 (by omega)
          rw [if_neg hk]
        · rw [if_neg h1, if_neg h2, if_neg h3, ih2]
          have hk : cleanKeep min_length (lower w) = true := by
            simp only [cleanKeep, decide_eq_true_eq]
            exact ⟨h2, by omega⟩
          rw [if_pos hk, List.filter_cons, if_pos (by simp [h1])]
          rw [dedupFirst.eq_2]
          congr 1
          apply congrArg dedupFirst
          rw [List.filter_filter, List.filter_filter, List.filter_filter]
          apply List.filter_congr
          intro y _
          rw [show decide (y ∉ lower w :: seen)
              = (decide (y ≠ lower w) && decide (y ∉ seen)) from by
            by_cases hyl : y = lower w
            · simp [hyl]
            · by_cases hys : y ∈ seen
              · simp [hys]
              · simp [hyl, hys]]

/-- Claim C2: the output of `clean_wordlist` is a subsequence of the
lowercased input, no two of its entries agree after lowercasing, the output
is exactly the first-occurrence deduplication of the lowercased input words
passing the forbidden-character and length tests — so the entries stand in
first-occurrence order of the input — and every entry is at least
`min_length` long and carries none of the four forbidden characters. -/
theorem clean_guarantees (words : List (List Char)) (min_length : Int) :
    List.Sublist (clean_wordlist words min_length) (words.map lower)
    ∧ List.Pairwise (fun a b => lower a ≠ lower b) (clean_wordlist words min_length)
    ∧ clean_wordlist words min_length
        = dedupFirst ((words.map lower).filter (cleanKeep min_length))
    ∧ ∀ w ∈ clean_wordlist words min_length,
        min_length ≤ (w.length : Int)
        ∧ '-' ∉ w ∧ '~' ∉ w ∧ apostrophe ∉ w ∧ rightQuote ∉ w := by
  refine ⟨cleanGo_sublist min_length words [], ?_, ?_, ?_⟩
  · have hnd := (cleanGo_nodup min_length words []).2
    refine List.Pairwise.imp_of_mem ?_ hnd
    intro a b ha hb hne
    have la := (cleanGo_mem min_length words [] a ha).1
    have lb := (cleanGo_mem min_length words [] b hb).1
    rw [la, lb]; exact hne
  · show cleanGo min_length [] words = dedupFirst ((words.map lower).filter (cleanKeep min_length))
    rw [cleanGo_eq_dedupFirst min_length words []]
    congr 1
    apply List.filter_eq_self.mpr
    intro a _
    simp
  · intro w hw
    obtain ⟨-, hlen, hforb⟩ := cleanGo_mem min_length words [] w hw
    push_neg at hforb
    exact ⟨hlen, hforb.1, hforb.2.1, hforb.2.2.1, hforb.2.2.2⟩

/-- Claim C3: cleaning is idempotent; cleaning an already-clean list changes
nothing. -/
theorem clean_idempotent (words : List (List Char)) (min_length : Int) :
    clean_wordlist (clean_wordlist words min_length) min_length
      = clean_wordlist words min_length := by
  unfold clean_wordlist
  refine cleanGo_stable min_length _ []
    (fun w hw => cleanGo_mem min_length words [] w hw)
    (cleanGo_nodup min_length words []).2 ?_
  intro w _
  exact List.not_mem_nil w

/-- Claim C7: with a nonpositive `min_length` the length filter is disabled;
every input word, the empty word included, whose lowercase form avoids the
four forbidden characters reaches the output of `clean_wordlist`. -/
theorem clean_min_nonpos (words : List (List Char)) (min_length : Int)
    (hmin : min_length ≤ 0) (w : List Char) (hw : w ∈ words)
    (hforb : ¬ ('-' ∈ lower w ∨ '~' ∈ lower w ∨ apostrophe ∈ lower w ∨ rightQuote ∈ lower w)) :
    lower w ∈ clean_wordlist words min_length := by
  unfold clean_wordlist
  rcases cleanGo_complete min_length words [] w hw hforb (by omega) with h | h
  · exact absurd h (List.not_mem_nil _)
  · exact h

/-- Concrete instance of claim C7 at the word "hi" with `min_length = 0`. -/
theorem clean_min_nonpos_witness :
    lower ['h', 'i'] ∈ clean_wordlist [['h', 'i']] 0 :=
  clean_min_nonpos [['h', 'i']] 0 (by decide) ['h', 'i'] (by decide) (by decide)

theorem selectGo_sublist (mh : List Char) (allowed : List (List Char)) (min_length : Int) :
    ∀ ws : List (List Char), List.Sublist (selectGo mh allowed min_length ws) (ws.map lower)
  | [] => List.Sublist.refl _
  | w :: ws => by
    simp only [selectGo, List.map_cons]
    split_ifs with h1 h2
    · exact List.Sublist.cons _ (selectGo_sublist mh allowed min_length ws)
    · exact List.Sublist.cons₂ _ (selectGo_sublist mh allowed min_length ws)
    · exact List.Sublist.cons _ (selectGo_sublist mh allowed min_length ws)

theorem selectGo_mem (mh : List Char) (allowed : List (List Char)) (min_length : Int) :
    ∀ (ws : List (List Char)) (w : List Char), w ∈ selectGo mh allowed min_length ws →
      lower w = w ∧ min_length ≤ (w.length : Int) ∧ List.IsInfix mh w ∧ ∀ c ∈ w, [c] ∈ allowed
  | [], w, h => absurd h (List.not_mem_nil w)
  | v :: ws, w, h => by
    simp only [selectGo] at h
    split_ifs at h with h1 h2
    · exact selectGo_mem mh allowed min_length ws w h
    · rcases List.mem_cons.mp h with heq | h
      · subst heq
        push_neg at h1
        exact ⟨lower_lower v, by omega, h1.2, h2⟩
      · exact selectGo_mem mh allowed min_length ws w h
    · exact selectGo_mem mh allowed min_length ws w h

theorem selectGo_count (mh : List Char) (allowed : List (List Char)) (min_length : Int)
    (w : List Char) (hlen : min_length ≤ (w.length : Int)) (hinf : List.IsInfix mh w)
    (hall : ∀ c ∈ w, [c] ∈ allowed) :
    ∀ ws : List (List Char),
      (selectGo mh allowed min_length ws).count w
        = ws.countP (fun v => decide (lower v = w))
  | [] => rfl
  | v :: ws => by
    have ih := selectGo_count mh allowed min_length w hlen hinf hall ws
    simp only [selectGo]
    split_ifs with h1 h2
    · rw [List.countP_cons, ih]
      have hv : ¬ lower v = w := by
        intro heq
        rw [heq] at h1
        rcases h1 with h1 | h1
        · omega
        · exact h1 hinf
      simp [hv]
    · rw [List.count_cons, List.countP_cons, ih]
      by_cases heq : lower v = w
      · simp [heq]
      · have h3 : ¬ w = lower v := fun h => heq h.symm
        simp [heq, h3]
    · rw [List.countP_cons, ih]
      have hv : ¬ lower v = w := by
        intro heq
        rw [heq] at h2
        exact h2 hall
      simp [hv]

theorem mem_allowed_single (must_have : List Char) (optional : List Char) (c : Char) :
    [c] ∈ allowedLetters must_have (optional.map (fun o => [o])) ↔
      [c] = lower must_have ∨ c ∈ optional.map Char.toLower := by
  unfold allowedLetters
  rw [List.mem_cons]
  apply or_congr Iff.rfl
  rw [List.map_map, List.mem_map, List.mem_map]
  constructor
  · rintro ⟨o, ho, h⟩
    refine ⟨o, ho, ?_⟩
    have h' : [Char.toLower o] = [c] := h
    injection h'
  · rintro ⟨o, ho, h⟩
    refine ⟨o, ho, ?_⟩
    show lower [o] = [c]
    rw [show lower [o] = [Char.toLower o] from rfl, h]

/-- Claim C1: every word kept by `selector` uses only the lowercased required
letter and the lowercased optional characters, contains the lowercased
required string as a contiguous substring, and is at least `min_length`
long. -/
theorem selector_subset (must_have : List Char) (optional : List Char)
    (words : List (List Char)) (min_length : Int) (w : List Char)
    (hw : w ∈ selector must_have (optional.map (fun o => [o])) words min_length) :
    (∀ c ∈ w, [c] = lower must_have ∨ c ∈ optional.map Char.toLower)
    ∧ List.IsInfix (lower must_have) w
    ∧ min_length ≤ (w.length : Int) := by
  obtain ⟨-, hlen, hinf, hall⟩ := selectGo_mem _ _ min_length words w hw
  exact ⟨fun c hc => (mem_allowed_single must_have optional c).mp (hall c hc), hinf, hlen⟩

/-- Concrete instance of claim C1: the word "eats" selected for the puzzle
with required letter e and optional letters a, t, s. -/
theorem selector_subset_witness :
    (∀ c ∈ (['e', 'a', 't', 's'] : List Char),
        [c] = lower ['e'] ∨ c ∈ (['a', 't', 's'] : List Char).map Char.toLower)
    ∧ List.IsInfix (lower ['e']) ['e', 'a', 't', 's']
    ∧ (4 : Int) ≤ ((['e', 'a', 't', 's'] : List Char).length : Int) :=
  selector_subset ['e'] ['a', 't', 's'] [['e', 'a', 't', 's']] 4 ['e', 'a', 't', 's'] (by decide)

/-- Claim C4: the output of `selector` is a subsequence of the elementwise
lowercased input, in the original relative order, and every returned word is
fixed by lowercasing. -/
theorem selector_order_lowercase (must_have : List Char) (optional : List (List Char))
    (words : List (List Char)) (min_length : Int) :
    List.Sublist (selector must_have optional words min_length) (words.map lower)
    ∧ ∀ w ∈ selector must_have optional words min_length, lower w = w :=
  ⟨selectGo_sublist _ _ min_length words,
    fun w hw => (selectGo_mem _ _ min_length words w hw).1⟩

theorem selectGo_congr_allowed (mh : List Char) (a₁ a₂ : List (List Char)) (min_length : Int)
    (h : ∀ x : List Char, x ∈ a₁ ↔ x ∈ a₂) :
    ∀ ws : List (List Char), selectGo mh a₁ min_length ws = selectGo mh a₂ min_length ws
  | [] => rfl
  | w :: ws => by
    have ih := selectGo_congr_allowed mh a₁ a₂ min_length h ws
    simp only [selectGo]
    by_cases h1 : ((lower w).length : Int) < min_length ∨ ¬ List.IsInfix mh (lower w)
    · rw [if_pos h1, if_pos h1, ih]
    · rw [if_neg h1, if_neg h1]
      by_cases h2 : ∀ c ∈ lower w, [c] ∈ a₁
      · rw [if_pos h2, if_pos (fun c hc => (h [c]).mp (h2 c hc)), ih]
      · rw [if_neg h2, if_neg (fun h2' => h2 (fun c hc => (h [c]).mpr (h2' c hc))), ih]

/-- Claim C6: listing the required letter again among the optional letters
changes nothing, and the allowed set always holds the lowercased required
letter as a member. -/
theorem selector_redundant_required (must_have : List Char) (optional : List (List Char))
    (words : List (List Char)) (min_length : Int) :
    selector must_have optional words min_length
      = selector must_have (must_have :: optional) words min_length
    ∧ lower must_have ∈ allowedLetters must_have optional := by
  constructor
  · unfold selector
    refine selectGo_congr_allowed _ _ _ min_length ?_ words
    intro x
    simp only [allowedLetters, List.map_cons, List.mem_cons]
    tauto
  · exact List.mem_cons_self _ _

/-- Claim C9: `selector` is total and returns exactly the lowercased words of
sufficient length that contain the lowercased required string as a contiguous
substring and whose characters all lie in the allowed set; with an empty
required string this keeps every sufficiently long word over the optional
letters. -/
theorem selector_extensional (must_have : List Char) (optional : List Char)
    (words : List (List Char)) (min_length : Int) :
    selector must_have (optional.map (fun o => [o])) words min_length
      = selectorSpec must_have optional words min_length := by
  unfold selector selectorSpec
  induction words with
  | nil => rfl
  | cons w ws ih =>
    simp only [selectGo, List.map_cons, List.filter_cons]
    by_cases h1 : ((lower w).length : Int) < min_length ∨ ¬ List.IsInfix (lower must_have) (lower w)
    · rw [if_pos h1, ih]
      have hd : decide (min_length ≤ ((lower w).length : Int)
          ∧ List.IsInfix (lower must_have) (lower w)
          ∧ ∀ c ∈ lower w, [c] = lower must_have ∨ c ∈ optional.map Char.toLower) = false := by
        rw [decide_eq_false_iff_not]
        rintro ⟨hle, hinf, -⟩
        rcases h1 with h | h
        · omega
        · exact h hinf
      rw [hd]
      simp
    · push_neg at h1
      obtain ⟨h1a, h1b⟩ := h1
      by_cases h2 : ∀ c ∈ lower w, [c] ∈ allowedLetters must_have (optional.map (fun o => [o]))
      · rw [if_neg (by push_neg; exact ⟨h1a, h1b⟩), if_pos h2, ih]
        have hd : decide (min_length ≤ ((lower w).length : Int)
            ∧ List.IsInfix (lower must_have) (lower w)
            ∧ ∀ c ∈ lower w, [c] = lower must_have ∨ c ∈ optional.map Char.toLower) = true := by
          rw [decide_eq_true_eq]
          exact ⟨by omega, h1b,
            fun c hc => (mem_allowed_single must_have optional c).mp (h2 c hc)⟩
        rw [hd]
        simp
      · rw [if_neg (by push_neg; exact ⟨h1a, h1b⟩), if_neg h2, ih]
        have hd : decide (min_length ≤ ((lower w).length : Int)
            ∧ List.IsInfix (lower must_have) (lower w)
            ∧ ∀ c ∈ lower w, [c] = lower must_have ∨ c ∈ optional.map Char.toLower) = false := by
          rw [decide_eq_false_iff_not]
          rintro ⟨-, -, hall⟩
          exact h2 (fun c hc => (mem_allowed_single must_have optional c).mpr (hall c hc))
        rw [hd]
        simp

/-- Claim C10: `selector` keeps duplicates; a word satisfying the filter
appears in the output once for every input word with that lowercase form. -/
theorem selector_multiplicity (must_have : List Char) (optional : List (List Char))
    (words : List (List Char)) (min_length : Int) (w : List Char)
    (hlen : min_length ≤ (w.length : Int))
    (hinf : List.IsInfix (lower must_have) w)
    (hall : ∀ c ∈ w, [c] ∈ allowedLetters must_have optional) :
    (selector must_have optional words min_length).count w
      = words.countP (fun v => decide (lower v = w)) :=
  selectGo_count _ _ min_length w hlen hinf hall words

/-- Concrete instance of claim C10: the word "eats" occurs twice in the input,
once in upper case, and twice in the output. -/
theorem selector_multiplicity_witness :
    (selector ['e'] [['a'], ['t'], ['s']]
        [['e', 'a', 't', 's'], ['E', 'A', 'T', 'S']] 4).count ['e', 'a', 't', 's']
      = List.countP (fun v => decide (lower v = ['e', 'a', 't', 's']))
          [['e', 'a', 't', 's'], ['E', 'A', 'T', 'S']] :=
  selector_multiplicity ['e'] [['a'], ['t'], ['s']]
    [['e', 'a', 't', 's'], ['E', 'A', 'T', 'S']] 4 ['e', 'a', 't', 's']
    (by decide) (by decide) (by decide)

/-- Claim C8: a selected word is classified as a pangram exactly when its set
of distinct characters equals the allowed alphabet: it uses every letter of
the puzzle at least once and no letter outside it. -/
theorem pangram_iff (central : Char) (others : List Char) (words : List (List Char))
    (w : List Char) (_hw : w ∈ selector [central] (others.map (fun c => [c])) words 4) :
    is_pangram central others w ↔
      ((∀ c ∈ central :: others, c ∈ w) ∧ ∀ c ∈ w, c ∈ central :: others) := by
  unfold is_pangram
  rw [Finset.ext_iff]
  constructor
  · intro h
    constructor
    · intro c hc
      exact List.mem_toFinset.mp ((h c).mpr (List.mem_toFinset.mpr hc))
    · intro c hc
      exact List.mem_toFinset.mp ((h c).mp (List.mem_toFinset.mpr hc))
  · intro h c
    constructor
    · intro hc
      exact List.mem_toFinset.mpr (h.2 c (List.mem_toFinset.mp hc))
    · intro hc
      exact List.mem_toFinset.mpr (h.1 c (List.mem_toFinset.mp hc))

/-- Concrete instance of claim C8: "eats" is a pangram of the puzzle with
central letter e and other letters a, t, s. -/
theorem pangram_iff_witness :
    is_pangram 'e' ['a', 't', 's'] ['e', 'a', 't', 's'] ↔
      ((∀ c ∈ 'e' :: ['a', 't', 's'], c ∈ (['e', 'a', 't', 's'] : List Char))
        ∧ ∀ c ∈ (['e', 'a', 't', 's'] : List Char), c ∈ 'e' :: ['a', 't', 's']) :=
  pangram_iff 'e' ['a', 't', 's'] [['e', 'a', 't', 's']] ['e', 'a', 't', 's'] (by decide)

theorem decodeHex_hexDigit : ∀ n < 16, decodeHex (hexDigit n) = some n := by decide

theorem parseStringBody_encodeBody :
    ∀ (s rest : List Char), parseStringBody (encodeBody s ++ ('"' :: rest)) = some (s, rest)
  | [], rest => by
    rw [encodeBody, List.nil_append, parseStringBody.eq_def]
    simp
  | c :: s, rest => by
    have ih := parseStringBody_encodeBody s rest
    rw [encodeBody, List.append_assoc]
    unfold encodeChar
    split_ifs with hbs hq hctl h8 h9 h10 h12 h13
    · subst hbs
      rw [List.cons_append, List.cons_append, List.nil_append, parseStringBody.eq_def]
      simp [ih]
    · subst hq
      rw [List.cons_append, List.cons_append, List.nil_append, parseStringBody.eq_def]
      simp [ih]
    · rw [List.cons_append, List.cons_append, List.nil_append, parseStringBody.eq_def]
      simp only []
      have hc : c = Char.ofNat 8 := by
        have := Char.ofNat_toNat c
        rw [h8] at this
        exact this.symm
      simp [ih, hc]
    · rw [List.cons_append, List.cons_append, List.nil_append, parseStringBody.eq_def]
      have hc : c = Char.ofNat 9 := by
        have := Char.ofNat_toNat c
        rw [h9] at this
        exact this.symm
      simp [ih, hc]
    · rw [List.cons_append, List.cons_append, List.nil_append, parseStringBody.eq_def]
      have hc : c = Char.ofNat 10 := by
        have := Char.ofNat_toNat c
        rw [h10] at this
        exact this.symm
      simp [ih, hc]
    · rw [List.cons_append, List.cons_append, List.nil_append, parseStringBody.eq_def]
      have hc : c = Char.ofNat 12 := by
        have := Char.ofNat_toNat c
        rw [h12] at this
        exact this.symm
      simp [ih, hc]
    · rw [List.cons_append, List.cons_append, List.nil_append, parseStringBody.eq_def]
      have hc : c = Char.ofNat 13 := by
        have := Char.ofNat_toNat c
        rw [h13] at this
        exact this.symm
      simp [ih, hc]
    · rw [List.cons_append, List.cons_append, List.cons_append, List.cons_append,
        List.cons_append, List.cons_append, List.nil_append, parseStringBody.eq_def]
      have hd1 : decodeHex (hexDigit (c.toNat / 16)) = some (c.toNat / 16) :=
        decodeHex_hexDigit _ (by omega)
      have hd2 : decodeHex (hexDigit (c.toNat % 16)) = some (c.toNat % 16) :=
        decodeHex_hexDigit _ (by omega)
      have hn : ((0 * 16 + 0) * 16 + c.toNat / 16) * 16 + c.toNat % 16 = c.toNat := by omega
      have hd0 : decodeHex '0' = some 0 := by decide
      simp [hex4, hd0, hd1, hd2, hn, ih]
      rw [show c.toNat / 16 * 16 + c.toNat % 16 = c.toNat by omega, Char.ofNat_toNat]
    · rw [List.cons_append, List.nil_append, parseStringBody.eq_def]
      simp [hbs, hq, ih]

theorem parseItems_exportItems :
    ∀ (ws : List (List Char)) (fuel : Nat), ws ≠ [] → ws.length ≤ fuel →
      parseItems fuel (exportItems ws ++ [']']) = some ws
  | [], _, h, _ => absurd rfl h
  | [w], fuel, _, hf => by
    obtain ⟨f, rfl⟩ : ∃ f, fuel = f + 1 := ⟨fuel - 1, by simp at hf; omega⟩
    rw [show exportItems [w] = encodeString w from rfl, encodeString]
    rw [List.cons_append, List.append_assoc]
    rw [parseItems.eq_def]
    simp only []
    rw [show ['"'] ++ [']'] = '"' :: [']'] from rfl]
    rw [parseStringBody_encodeBody w [']']]
    simp
  | w :: w₂ :: rest, fuel, _, hf => by
    obtain ⟨f, rfl⟩ : ∃ f, fuel = f + 1 := ⟨fuel - 1, by simp at hf; omega⟩
    have ih : parseItems f (exportItems (w₂ :: rest) ++ [']']) = some (w₂ :: rest) := by
      refine parseItems_exportItems (w₂ :: rest) f (by simp) ?_
      simp at hf ⊢
      omega
    rw [show exportItems (w :: w₂ :: rest) = encodeString w ++ (',' :: exportItems (w₂ :: rest)) from rfl,
      encodeString]
    simp only [List.cons_append, List.append_assoc, List.singleton_append, List.nil_append]
    rw [parseItems.eq_def]
    simp only []
    rw [parseStringBody_encodeBody w (',' :: (exportItems (w₂ :: rest) ++ [']']))]
    simp [ih]

theorem length_le_exportItems : ∀ ws : List (List Char), ws.length ≤ (exportItems ws).length + 1
  | [] => by simp [exportItems]
  | [w] => by simp
  | w :: w₂ :: rest => by
    have ih := length_le_exportItems (w₂ :: rest)
    rw [show exportItems (w :: w₂ :: rest) = encodeString w ++ (',' :: exportItems (w₂ :: rest)) from rfl]
    simp only [List.length_cons, List.length_append, encodeString]
    simp at ih ⊢
    omega

/-- Claim C5: parsing the text `export_words` produces gives back the input
list of words exactly, in order, with case preserved; `export_words` never
lowercases, reorders, deduplicates or drops an entry. -/
theorem export_roundtrip (words : List (List Char)) :
    parseJsonStrings (export_words words) = some words := by
  cases words with
  | nil => rfl
  | cons w ws =>
    have hne : w :: ws ≠ ([] : List (List Char)) := by simp
    have hlen := length_le_exportItems (w :: ws)
    obtain ⟨t, ht⟩ : ∃ t, exportItems (w :: ws) = '"' :: t := by
      cases ws
      · exact ⟨_, by rw [show exportItems [w] = encodeString w from rfl, encodeString]⟩
      · exact ⟨_, by
          rw [show exportItems (w :: _ :: _) = encodeString w ++ (',' :: exportItems (_ :: _)) from rfl, encodeString]
          rfl⟩
    have hmain := parseItems_exportItems (w :: ws) (('"' :: (t ++ [']'])).length) hne
      (by
        rw [ht] at hlen
        simp at hlen ⊢
        omega)
    rw [show exportItems (w :: ws) ++ [']'] = '"' :: (t ++ [']']) from by rw [ht]; rfl] at hmain
    rw [export_words, ht]
    rw [List.cons_append]
    rw [parseJsonStrings.eq_def]
    simp only []
    split
    · next h => exact absurd h (by simp)
    · exact hmain

end Mkbee
